import Mathlib

unseal Rat.add Rat.sub Rat.mul Rat.inv Rat.ofScientific

/-!
Shallow embedding of the fantasy-football training and evaluation scripts
(`scripts/training.py`, `scripts/evaluation.py`).

Numeric values are modelled by exact rationals `ℚ` in place of machine
floats; `float('inf')` is modelled by `⊤ : WithTop ℚ`.  Tensors and numpy
arrays over which the scripts compute elementwise are modelled by lists
(batches, loss vectors) or by functions `Fin m → Fin n → ℚ` (feature
matrices).  The external model, metric and random shuffle are opaque in the
source, so they enter the embedding as explicit parameters (a score
function, a family of permutations).
-/

namespace FFP

/-- Parameters of `WeightedMSELoss.__init__` (training.py, lines 7-13).
Default argument values mirror the Python signature
`high_threshold=14.5, low_threshold=4, high_weight=6, low_weight=1,
very_low_weight=3`. -/
structure WeightedMSELoss where
  high_threshold : ℚ := 14.5
  low_threshold : ℚ := 4
  high_weight : ℚ := 6
  low_weight : ℚ := 1
  very_low_weight : ℚ := 3
deriving DecidableEq

/-- The `WeightedMSELoss` instance built with all default arguments. -/
def defaultCriterion : WeightedMSELoss := {}

/-- The criterion constructed inside `train_model` (training.py, line 24):
`WeightedMSELoss(high_threshold=14.5, low_threshold=4.0, high_weight=6,
low_weight=1, very_low_weight=3)`. -/
def trainModelCriterion : WeightedMSELoss :=
  { high_threshold := 14.5, low_threshold := 4.0, high_weight := 6,
    low_weight := 1, very_low_weight := 3 }

/-- Per-element weight selected by the nested `torch.where` in
`WeightedMSELoss.forward` (training.py, lines 17-18): `high_weight` when
the target exceeds `high_threshold`, otherwise `very_low_weight` when the
target is below `low_threshold`, otherwise `low_weight`. -/
def WeightedMSELoss.weight (self : WeightedMSELoss) (t : ℚ) : ℚ :=
  if t > self.high_threshold then self.high_weight
  else if t < self.low_threshold then self.very_low_weight
  else self.low_weight

/-- Arithmetic mean of a list of rationals (`torch.mean` on a flat tensor;
division by zero yields `0` on the empty list, a case the scripts never
exercise). -/
def meanList (l : List ℚ) : ℚ := l.sum / l.length

/-- Embedding of `WeightedMSELoss.forward` (training.py, lines 15-21):
elementwise squared difference, elementwise weight from the target band,
then the mean of the weighted squared differences. -/
def WeightedMSELoss.forward (self : WeightedMSELoss)
    (outputs targets : List ℚ) : ℚ :=
  meanList (List.zipWith (fun o t => self.weight t * (o - t) ^ 2) outputs targets)

/-- Plain mean squared error, the reference point for claim C3 and the
default metric of `permutation_importance`
(`sklearn.metrics.mean_squared_error`). -/
def meanSquaredError (y yPred : List ℚ) : ℚ :=
  meanList (List.zipWith (fun a b => (a - b) ^ 2) y yPred)

/-- Mean absolute error (`sklearn.metrics.mean_absolute_error`). -/
def meanAbsoluteError (y yPred : List ℚ) : ℚ :=
  meanList (List.zipWith (fun a b => |a - b|) y yPred)

/-- Mean of squared deviations of a list from its own mean, the
denominator of the coefficient of determination. -/
def meanSquaredDeviation (y : List ℚ) : ℚ :=
  meanList (y.map (fun a => (a - meanList y) ^ 2))

/-- Coefficient of determination (`sklearn.metrics.r2_score`):
one minus the ratio of residual to total sum of squares. -/
def r2Score (y yPred : List ℚ) : ℚ :=
  1 - meanSquaredError y yPred / meanSquaredDeviation y

end FFP

namespace FFP

/-- Pointwise congruence for `zipWith`, used to rewrite the weighted
summand when all weights are `1`. -/
theorem zipWith_congr_fun {α β γ : Type} (f g : α → β → γ) :
    ∀ (l₁ : List α) (l₂ : List β), (∀ a b, f a b = g a b) →
      List.zipWith f l₁ l₂ = List.zipWith g l₁ l₂ := by
  intro l₁
  induction l₁ with
  | nil => intro l₂ _; simp
  | cons a l ih =>
    intro l₂ h
    cases l₂ with
    | nil => simp
    | cons b l₂ => simp [List.zipWith, h a b, ih l₂ h]

/-- C2: for every target value `t`, `WeightedMSELoss.forward` weights that
element's squared error by `high_weight` when `t > high_threshold`, by
`very_low_weight` when `t < low_threshold`, and by `low_weight` otherwise;
both comparisons are strict, so the boundary targets
`t = high_threshold` and `t = low_threshold` both receive `low_weight`
(stated for any parameterisation whose bands are ordered,
`low_threshold ≤ high_threshold`, as in the documented defaults). -/
theorem C2_weight_bands (self : WeightedMSELoss)
    (h : self.low_threshold ≤ self.high_threshold) (t : ℚ) :
    (self.high_threshold < t → self.weight t = self.high_weight) ∧
    (t < self.low_threshold → self.weight t = self.very_low_weight) ∧
    (¬ self.high_threshold < t → ¬ t < self.low_threshold →
      self.weight t = self.low_weight) ∧
    self.weight self.high_threshold = self.low_weight ∧
    self.weight self.low_threshold = self.low_weight := by
  unfold WeightedMSELoss.weight
  refine ⟨fun ht => by rw [if_pos ht], fun ht => ?_, fun h1 h2 => ?_, ?_, ?_⟩
  · rw [if_neg (by push_neg; linarith), if_pos ht]
  · rw [if_neg h1, if_neg h2]
  · rw [if_neg (lt_irrefl _), if_neg (by push_neg; exact h)]
  · rw [if_neg (by push_neg; exact h), if_neg (lt_irrefl _)]

/-- C2 witness: the default parameterisation has ordered bands, and the
band/boundary characterisation holds there at target `20`. -/
theorem C2_weight_bands_witness :
    defaultCriterion.low_threshold ≤ defaultCriterion.high_threshold ∧
    ((defaultCriterion.high_threshold < 20 →
        defaultCriterion.weight 20 = defaultCriterion.high_weight) ∧
      ((20 : ℚ) < defaultCriterion.low_threshold →
        defaultCriterion.weight 20 = defaultCriterion.very_low_weight) ∧
      (¬ defaultCriterion.high_threshold < 20 →
        ¬ (20 : ℚ) < defaultCriterion.low_threshold →
        defaultCriterion.weight 20 = defaultCriterion.low_weight) ∧
      defaultCriterion.weight defaultCriterion.high_threshold =
        defaultCriterion.low_weight ∧
      defaultCriterion.weight defaultCriterion.low_threshold =
        defaultCriterion.low_weight) :=
  ⟨by decide, C2_weight_bands defaultCriterion (by decide) 20⟩

/-- C3: on non-empty equal-length prediction and target vectors,
`WeightedMSELoss.forward` returns the arithmetic mean of the weighted
squared errors, and when all three weights equal `1` it coincides with the
plain mean squared error. -/
theorem C3_forward_mean (self : WeightedMSELoss) (outputs targets : List ℚ)
    (hne : outputs ≠ []) (hlen : outputs.length = targets.length) :
    self.forward outputs targets =
      (List.zipWith (fun o t => self.weight t * (o - t) ^ 2) outputs targets).sum
        / outputs.length ∧
    (self.high_weight = 1 → self.low_weight = 1 → self.very_low_weight = 1 →
      self.forward outputs targets = meanSquaredError outputs targets) := by
  constructor
  · unfold WeightedMSELoss.forward meanList
    rw [List.length_zipWith, hlen, min_self]
  · intro hh hl hv
    unfold WeightedMSELoss.forward meanSquaredError
    have hw : ∀ o t : ℚ, self.weight t * (o - t) ^ 2 = (o - t) ^ 2 := by
      intro o t
      unfold WeightedMSELoss.weight
      split_ifs <;> simp [hh, hl, hv]
    rw [zipWith_congr_fun _ _ outputs targets hw]

/-- C3 witness: concrete non-empty equal-length vectors, with the
all-weights-one instance exercising the MSE coincidence. -/
theorem C3_forward_mean_witness :
    ([3, 5] : List ℚ) ≠ [] ∧ ([3, 5] : List ℚ).length = ([1, 2] : List ℚ).length ∧
    ((WeightedMSELoss.mk 14.5 4 1 1 1).forward [3, 5] [1, 2] =
      (List.zipWith
          (fun o t => (WeightedMSELoss.mk 14.5 4 1 1 1).weight t * (o - t) ^ 2)
          [3, 5] [1, 2]).sum / ([3, 5] : List ℚ).length ∧
      ((WeightedMSELoss.mk 14.5 4 1 1 1).high_weight = 1 →
        (WeightedMSELoss.mk 14.5 4 1 1 1).low_weight = 1 →
        (WeightedMSELoss.mk 14.5 4 1 1 1).very_low_weight = 1 →
        (WeightedMSELoss.mk 14.5 4 1 1 1).forward [3, 5] [1, 2] =
          meanSquaredError [3, 5] [1, 2])) :=
  ⟨by decide, by decide,
    C3_forward_mean (WeightedMSELoss.mk 14.5 4 1 1 1) [3, 5] [1, 2]
      (by decide) (by decide)⟩

/-- C10: the criterion that `train_model` constructs with explicit
arguments is extensionally equal to a `WeightedMSELoss` built with all
default arguments — the two produce the same loss on every prediction and
target pair (indeed the parameter records are equal). -/
theorem C10_train_criterion_is_default :
    (∀ outputs targets : List ℚ,
      trainModelCriterion.forward outputs targets =
        defaultCriterion.forward outputs targets) ∧
    trainModelCriterion = defaultCriterion := by
  refine ⟨fun outputs targets => ?_, by decide⟩
  have h : trainModelCriterion = defaultCriterion := by decide
  rw [h]

end FFP


namespace FFP

/-- State tracked across epochs by the checkpointing logic of
`train_model` (training.py, lines 37 and 57-60): the running best mean
validation loss (`float('inf')` initially, modelled by `⊤ : WithTop ℚ`)
and the content of the checkpoint file (`none` before the first write;
the written content is the model parameter snapshot, of opaque type). -/
structure TrainState (P : Type) where
  best_val_loss : WithTop ℚ
  checkpoint : Option P
deriving DecidableEq

/-- One epoch of the checkpoint update (training.py, lines 58-60):
`if val_loss < best_val_loss: best_val_loss = val_loss;
torch.save(model.state_dict(), model_path)`. -/
def epochStep {P : Type} (params : P) (val_loss : ℚ) (s : TrainState P) :
    TrainState P :=
  if (val_loss : WithTop ℚ) < s.best_val_loss then ⟨(val_loss : ℚ), some params⟩
  else s

/-- The epoch loop of `train_model` from epoch index `e` onwards, given the
sequence of remaining mean validation losses; `params e` is the parameter
snapshot the model holds at the end of epoch `e`. -/
def runFrom {P : Type} (params : ℕ → P) : ℕ → TrainState P → List ℚ → TrainState P
  | _, s, [] => s
  | e, s, v :: rest => runFrom params (e + 1) (epochStep (params e) v s) rest

/-- The whole checkpointing behaviour of a `train_model` run whose epochs
produce the mean validation losses `valLosses`, starting from
`best_val_loss = float('inf')` and no checkpoint file. -/
def trainCheckpointRun {P : Type} (params : ℕ → P) (valLosses : List ℚ) :
    TrainState P :=
  runFrom params 0 ⟨⊤, none⟩ valLosses

/-- Checkpoint-write flags of the epoch loop, one per epoch, starting from
the running best `b`: a write happens exactly when `val_loss <
best_val_loss` (training.py, lines 58-60). -/
def checkpointWritesFrom : WithTop ℚ → List ℚ → List Bool
  | _, [] => []
  | b, v :: rest =>
    if (v : WithTop ℚ) < b then true :: checkpointWritesFrom ((v : ℚ) : WithTop ℚ) rest
    else false :: checkpointWritesFrom b rest

/-- Checkpoint-write flags of a full run (`best_val_loss` starts at
`float('inf')`). -/
def checkpointWrites (valLosses : List ℚ) : List Bool :=
  checkpointWritesFrom ⊤ valLosses

/-- Minimum of a list of mean validation losses in `WithTop ℚ`
(`⊤` for the empty list). -/
def minValSoFar (l : List ℚ) : WithTop ℚ :=
  l.foldr (fun (v : ℚ) (acc : WithTop ℚ) => min ((v : ℚ) : WithTop ℚ) acc) ⊤

theorem minValSoFar_nil : minValSoFar [] = ⊤ := rfl

theorem minValSoFar_cons (v : ℚ) (rest : List ℚ) :
    minValSoFar (v :: rest) = min ((v : ℚ) : WithTop ℚ) (minValSoFar rest) := rfl

theorem checkpointWritesFrom_cons (b : WithTop ℚ) (v : ℚ) (rest : List ℚ) :
    checkpointWritesFrom b (v :: rest) =
      if (v : WithTop ℚ) < b then
        true :: checkpointWritesFrom ((v : ℚ) : WithTop ℚ) rest
      else false :: checkpointWritesFrom b rest := rfl

theorem checkpointWritesFrom_length (b : WithTop ℚ) (l : List ℚ) :
    (checkpointWritesFrom b l).length = l.length := by
  induction l generalizing b with
  | nil => rfl
  | cons v rest ih =>
    rw [checkpointWritesFrom_cons]
    split <;> simp [ih]

theorem coe_lt_minValSoFar_iff (x : ℚ) (l : List ℚ) :
    ((x : ℚ) : WithTop ℚ) < minValSoFar l ↔ ∀ v ∈ l, x < v := by
  induction l with
  | nil => simp [minValSoFar_nil]
  | cons v rest ih =>
    rw [minValSoFar_cons, lt_min_iff, ih]
    simp [WithTop.coe_lt_coe]

theorem checkpointWritesFrom_get? (l : List ℚ) :
    ∀ (b : WithTop ℚ) (i : ℕ) (x : ℚ), l.get? i = some x →
      ((checkpointWritesFrom b l).get? i = some true ↔
        ((x : ℚ) : WithTop ℚ) < min b (minValSoFar (l.take i))) := by
  induction l with
  | nil => intro b i x hx; simp at hx
  | cons v rest ih =>
    intro b i x hx
    cases i with
    | zero =>
      rw [List.get?_cons_zero, Option.some_inj] at hx
      subst hx
      rw [checkpointWritesFrom_cons]
      rw [List.take_zero, minValSoFar_nil, min_eq_left le_top]
      split
      case isTrue h => simpa using h
      case isFalse h => simpa using h
    | succ j =>
      rw [List.get?_cons_succ] at hx
      rw [checkpointWritesFrom_cons, List.take_succ_cons, minValSoFar_cons]
      split
      case isTrue h =>
        rw [List.get?_cons_succ, ih _ j x hx]
        rw [← min_assoc, min_eq_right h.le]
      case isFalse h =>
        rw [List.get?_cons_succ, ih b j x hx]
        rw [← min_assoc, min_eq_left (not_lt.mp h)]

end FFP

namespace FFP

/-- Bridging membership in a `take` prefix with indexed access: the
elements of `l.take i` are exactly the entries at positions `j < i`. -/
theorem forall_mem_take_iff (l : List ℚ) (i : ℕ) (hi : i ≤ l.length)
    (P : ℚ → Prop) :
    (∀ v ∈ l.take i, P v) ↔
      ∀ (j : ℕ) (hj : j < i), P (l.get ⟨j, lt_of_lt_of_le hj hi⟩) := by
  constructor
  · intro h j hj
    apply h
    rw [List.mem_take_iff_getElem]
    exact ⟨j, lt_min hj (lt_of_lt_of_le hj hi), rfl⟩
  · intro h v hv
    rw [List.mem_take_iff_getElem] at hv
    obtain ⟨j, hj, hget⟩ := hv
    have hji : j < i := lt_of_lt_of_le hj (min_le_left _ _)
    have := h j hji
    rwa [show l.get ⟨j, lt_of_lt_of_le hji hi⟩ = v from hget] at this

/-- C1: in `train_model`, for every sequence of epoch mean validation
losses, the checkpoint file is written at an epoch exactly when that
epoch's mean validation loss is strictly below every prior epoch's mean
validation loss (vacuously so at the first epoch, since `best_val_loss`
starts at `float('inf')`); on the loss sequence `[5, 3, 4, 2]` the writes
happen at epochs 1, 2 and 4 but not at epoch 3. -/
theorem C1_checkpoint_write_iff_improvement (valLosses : List ℚ) :
    (checkpointWrites valLosses).length = valLosses.length ∧
    (∀ (i : ℕ) (hi : i < valLosses.length)
        (hw : i < (checkpointWrites valLosses).length),
      ((checkpointWrites valLosses).get ⟨i, hw⟩ = true ↔
        ∀ (j : ℕ) (hj : j < i),
          valLosses.get ⟨i, hi⟩ < valLosses.get ⟨j, hj.trans hi⟩)) ∧
    checkpointWrites [5, 3, 4, 2] = [true, true, false, true] := by
  refine ⟨checkpointWritesFrom_length ⊤ valLosses, ?_, by decide⟩
  intro i hi hw
  have hx : valLosses.get? i = some (valLosses.get ⟨i, hi⟩) := List.get?_eq_get hi
  have h2 := checkpointWritesFrom_get? valLosses ⊤ i _ hx
  rw [min_eq_right le_top, coe_lt_minValSoFar_iff,
    forall_mem_take_iff valLosses i hi.le] at h2
  have hw2 : i < (checkpointWritesFrom ⊤ valLosses).length := hw
  rw [List.get?_eq_get hw2, Option.some_inj] at h2
  exact h2

/-- C1 witness: on the loss sequence `[5, 3, 4, 2]`, epoch 4 (index 3)
writes the checkpoint exactly because its loss `2` beats every prior
loss. -/
theorem C1_checkpoint_write_iff_improvement_witness :
    (checkpointWrites [5, 3, 4, 2]).get ⟨3, by decide⟩ = true ↔
      ∀ (j : ℕ) (hj : j < 3),
        ([5, 3, 4, 2] : List ℚ).get ⟨3, by decide⟩ <
          ([5, 3, 4, 2] : List ℚ).get ⟨j, hj.trans (by decide)⟩ :=
  (C1_checkpoint_write_iff_improvement [5, 3, 4, 2]).2.1 3 (by decide) (by decide)

theorem epochStep_best {P : Type} (p : P) (v : ℚ) (s : TrainState P) :
    (epochStep p v s).best_val_loss =
      min s.best_val_loss ((v : ℚ) : WithTop ℚ) := by
  unfold epochStep
  split
  case isTrue h => exact (min_eq_right h.le).symm
  case isFalse h => exact (min_eq_left (not_lt.mp h)).symm

theorem runFrom_best {P : Type} (params : ℕ → P) (l : List ℚ) :
    ∀ (e : ℕ) (s : TrainState P),
      (runFrom params e s l).best_val_loss =
        min s.best_val_loss (minValSoFar l) := by
  induction l with
  | nil =>
    intro e s
    rw [minValSoFar_nil, min_eq_left le_top]
    rfl
  | cons v rest ih =>
    intro e s
    show (runFrom params (e + 1) (epochStep (params e) v s) rest).best_val_loss = _
    rw [ih (e + 1) _, epochStep_best, minValSoFar_cons, min_assoc]

theorem runFrom_checkpoint {P : Type} (params : ℕ → P) (l : List ℚ) :
    ∀ (e : ℕ) (s : TrainState P),
      (minValSoFar l < s.best_val_loss →
        ∃ (j : ℕ) (hj : j < l.length),
          ((l.get ⟨j, hj⟩ : ℚ) : WithTop ℚ) = minValSoFar l ∧
          (runFrom params e s l).checkpoint = some (params (e + j))) ∧
      (¬ minValSoFar l < s.best_val_loss →
        (runFrom params e s l).checkpoint = s.checkpoint) := by
  induction l with
  | nil =>
    intro e s
    refine ⟨fun h => absurd h ?_, fun _ => rfl⟩
    rw [minValSoFar_nil]
    exact not_top_lt
  | cons v rest ih =>
    intro e s
    have hrun : runFrom params e s (v :: rest) =
        runFrom params (e + 1) (epochStep (params e) v s) rest := rfl
    rw [hrun, minValSoFar_cons]
    by_cases hv : ((v : ℚ) : WithTop ℚ) < s.best_val_loss
    · -- epoch e writes: the state becomes ⟨v, some (params e)⟩
      have hs : epochStep (params e) v s =
          ⟨((v : ℚ) : WithTop ℚ), some (params e)⟩ := by
        unfold epochStep
        rw [if_pos hv]
      have hcond : min ((v : ℚ) : WithTop ℚ) (minValSoFar rest) < s.best_val_loss :=
        lt_of_le_of_lt (min_le_left _ _) hv
      refine ⟨fun _ => ?_, fun hcon => absurd hcond hcon⟩
      by_cases hr : minValSoFar rest < ((v : ℚ) : WithTop ℚ)
      · -- a later epoch improves further
        have hr2 : minValSoFar rest < (epochStep (params e) v s).best_val_loss := by
          rw [hs]
          exact hr
        obtain ⟨j, hj, hjmin, hjckpt⟩ := (ih (e + 1) (epochStep (params e) v s)).1 hr2
        refine ⟨j + 1, Nat.succ_lt_succ hj, ?_, ?_⟩
        · show ((rest.get ⟨j, hj⟩ : ℚ) : WithTop ℚ) = _
          rw [hjmin, min_eq_right hr.le]
        · rw [hjckpt, show e + 1 + j = e + (j + 1) from by omega]
      · -- epoch e stays the best; the loop never writes again
        have hr2 : ¬ minValSoFar rest < (epochStep (params e) v s).best_val_loss := by
          rw [hs]
          exact hr
        have hckpt := (ih (e + 1) (epochStep (params e) v s)).2 hr2
        refine ⟨0, Nat.succ_pos _, ?_, ?_⟩
        · show ((v : ℚ) : WithTop ℚ) = _
          rw [min_eq_left (not_lt.mp hr)]
        · rw [hckpt, hs, Nat.add_zero]
    · -- no write at epoch e: the state is unchanged
      have hs : epochStep (params e) v s = s := by
        unfold epochStep
        rw [if_neg hv]
      rw [hs]
      constructor
      · intro hmin
        have hle : minValSoFar rest ≤ ((v : ℚ) : WithTop ℚ) := by
          by_contra hc
          push_neg at hc
          rw [min_eq_left hc.le] at hmin
          exact hv hmin
        have hr : minValSoFar rest < s.best_val_loss := by
          rw [min_eq_right hle] at hmin
          exact hmin
        obtain ⟨j, hj, hjmin, hjckpt⟩ := (ih (e + 1) s).1 hr
        refine ⟨j + 1, Nat.succ_lt_succ hj, ?_, ?_⟩
        · show ((rest.get ⟨j, hj⟩ : ℚ) : WithTop ℚ) = _
          rw [hjmin, min_eq_right hle]
        · rw [hjckpt, show e + 1 + j = e + (j + 1) from by omega]
      · intro hmin
        have hr : ¬ minValSoFar rest < s.best_val_loss := fun hc =>
          hmin (lt_of_le_of_lt
            (min_le_right ((v : ℚ) : WithTop ℚ) (minValSoFar rest)) hc)
        exact (ih (e + 1) s).2 hr

end FFP

namespace FFP

theorem minValSoFar_foldr_init (l : List ℚ) (b : WithTop ℚ) :
    l.foldr (fun (v : ℚ) (acc : WithTop ℚ) => min ((v : ℚ) : WithTop ℚ) acc) b =
      min (minValSoFar l) b := by
  induction l with
  | nil => rw [minValSoFar_nil, min_eq_right le_top, List.foldr_nil]
  | cons v rest ih =>
    rw [List.foldr_cons, ih, minValSoFar_cons, min_assoc]

theorem minValSoFar_append (l₁ l₂ : List ℚ) :
    minValSoFar (l₁ ++ l₂) = min (minValSoFar l₁) (minValSoFar l₂) := by
  unfold minValSoFar
  rw [List.foldr_append]
  exact minValSoFar_foldr_init l₁ (minValSoFar l₂)

theorem minValSoFar_take_succ_le (l : List ℚ) (k : ℕ) :
    minValSoFar (l.take (k + 1)) ≤ minValSoFar (l.take k) := by
  rw [List.take_succ, minValSoFar_append]
  exact min_le_left _ _

theorem minValSoFar_lt_top (l : List ℚ) (h : l ≠ []) : minValSoFar l < ⊤ := by
  cases l with
  | nil => exact absurd rfl h
  | cons v rest =>
    rw [minValSoFar_cons]
    exact lt_of_le_of_lt (min_le_left _ _) (WithTop.coe_lt_top v)

/-- C9: in `train_model`, after every epoch the tracked `best_val_loss`
equals the minimum of the mean validation losses of the epochs completed
so far (it starts at `float('inf')` and is non-increasing), and the
checkpoint on disk holds the parameter snapshot of an epoch achieving that
minimum. -/
theorem C9_best_val_loss_invariant {P : Type} (params : ℕ → P)
    (valLosses : List ℚ) :
    trainCheckpointRun params ([] : List ℚ) = ⟨⊤, none⟩ ∧
    (∀ k : ℕ, (trainCheckpointRun params (valLosses.take k)).best_val_loss =
      minValSoFar (valLosses.take k)) ∧
    (∀ k : ℕ, minValSoFar (valLosses.take (k + 1)) ≤
      minValSoFar (valLosses.take k)) ∧
    (valLosses ≠ [] → ∃ (e : ℕ) (he : e < valLosses.length),
      ((valLosses.get ⟨e, he⟩ : ℚ) : WithTop ℚ) = minValSoFar valLosses ∧
      (trainCheckpointRun params valLosses).checkpoint = some (params e)) := by
  refine ⟨rfl, fun k => ?_, minValSoFar_take_succ_le valLosses, fun hne => ?_⟩
  · rw [trainCheckpointRun, runFrom_best, min_eq_right le_top]
  · have hlt : minValSoFar valLosses <
        (⟨⊤, none⟩ : TrainState P).best_val_loss :=
      minValSoFar_lt_top valLosses hne
    obtain ⟨j, hj, hjmin, hjckpt⟩ :=
      (runFrom_checkpoint params valLosses 0 ⟨⊤, none⟩).1 hlt
    exact ⟨j, hj, hjmin, by rwa [Nat.zero_add] at hjckpt⟩

/-- C9 witness: on the loss sequence `[5, 3, 4, 2]` with parameter
snapshots indexed by epoch, the checkpoint holds the snapshot of epoch
index 3, whose loss `2` is the minimum. -/
theorem C9_best_val_loss_invariant_witness :
    ([5, 3, 4, 2] : List ℚ) ≠ [] ∧
    ∃ (e : ℕ) (he : e < ([5, 3, 4, 2] : List ℚ).length),
      ((([5, 3, 4, 2] : List ℚ).get ⟨e, he⟩ : ℚ) : WithTop ℚ) =
        minValSoFar [5, 3, 4, 2] ∧
      (trainCheckpointRun (fun n => n) [5, 3, 4, 2]).checkpoint = some e :=
  ⟨by decide,
    (C9_best_val_loss_invariant (fun n => n) [5, 3, 4, 2]).2.2.2 (by decide)⟩

end FFP

namespace FFP

/-- Feature matrix with `m` example rows and `n` feature columns
(a 2-D numpy array in evaluation.py). -/
def Mat (m n : ℕ) : Type := Fin m → Fin n → ℚ

/-- Effect of `np.random.shuffle(X[:, j])` (evaluation.py, line 60) for
one permutation outcome `σ` of the rows: column `j` is rearranged by `σ`,
every other column is untouched. -/
def shuffleColumn {m n : ℕ} (σ : Equiv.Perm (Fin m)) (j : Fin n)
    (X : Mat m n) : Mat m n :=
  fun i k => if k = j then X (σ i) k else X i k

/-- Effect of the column assignment `X[:, j] = c`
(evaluation.py, line 69). -/
def setColumn {m n : ℕ} (j : Fin n) (c : Fin m → ℚ) (X : Mat m n) : Mat m n :=
  fun i k => if k = j then c i else X i k

/-- The two arrays live during `permutation_importance`: the caller's
`X_test` and the working copy `X_test_copy = X_test.copy()`
(evaluation.py, line 52); every in-place operation of the loop targets the
copy. -/
structure PIState (m n : ℕ) where
  X_test : Mat m n
  X_test_copy : Mat m n

/-- The per-column loop of `permutation_importance` (evaluation.py, lines
55-71): save the original feature column, shuffle it in the copy, score
the perturbed copy, record `shuffled_score - baseline_score`, restore the
column, move on.  `score` stands for the opaque
`metric(y_test, model(torch.tensor(...)))` composite and `perms j` for the
shuffle outcome used at column `j`. -/
def piLoop {m n : ℕ} (score : Mat m n → ℚ) (perms : Fin n → Equiv.Perm (Fin m))
    (baseline_score : ℚ) : List (Fin n) → PIState m n → List ℚ × PIState m n
  | [], s => ([], s)
  | j :: cols, s =>
    let original_feature := fun i => s.X_test_copy i j
    let shuffled := shuffleColumn (perms j) j s.X_test_copy
    let shuffled_score := score shuffled
    let restored := setColumn j original_feature shuffled
    let importance := shuffled_score - baseline_score
    let r := piLoop score perms baseline_score cols ⟨s.X_test, restored⟩
    (importance :: r.1, r.2)

/-- Embedding of `permutation_importance` (evaluation.py, lines 51-73):
copies `X_test`, scores the unperturbed data as the baseline, runs the
per-column loop over all columns in order, and returns the importances
together with the caller-visible content of `X_test` after the call. -/
def permutation_importance {m n : ℕ} (score : Mat m n → ℚ)
    (perms : Fin n → Equiv.Perm (Fin m)) (X_test : Mat m n) :
    List ℚ × Mat m n :=
  let X_test_copy := X_test
  let baseline_score := score X_test
  let r := piLoop score perms baseline_score (List.finRange n) ⟨X_test, X_test_copy⟩
  (r.1, r.2.X_test)

/-- Restoring the saved column after the shuffle recovers the array that
entered the iteration. -/
theorem setColumn_shuffleColumn {m n : ℕ} (σ : Equiv.Perm (Fin m))
    (j : Fin n) (X : Mat m n) :
    setColumn j (fun i => X i j) (shuffleColumn σ j X) = X := by
  funext i k
  by_cases h : k = j
  · subst h
    simp [setColumn, shuffleColumn]
  · simp [setColumn, shuffleColumn, h]

/-- The loop scores each listed column against the array it started with:
the restore step undoes the shuffle before the next iteration, so the
state is invariant and each shuffled score reads the original data. -/
theorem piLoop_spec {m n : ℕ} (score : Mat m n → ℚ)
    (perms : Fin n → Equiv.Perm (Fin m)) (baseline_score : ℚ) :
    ∀ (cols : List (Fin n)) (s : PIState m n),
      piLoop score perms baseline_score cols s =
        (cols.map (fun j =>
          score (shuffleColumn (perms j) j s.X_test_copy) - baseline_score), s) := by
  intro cols
  induction cols with
  | nil => intro s; rfl
  | cons j rest ih =>
    intro s
    show (_, _) = _
    rw [setColumn_shuffleColumn (perms j) j s.X_test_copy]
    rw [show (⟨s.X_test, s.X_test_copy⟩ : PIState m n) = s from rfl]
    rw [ih s, List.map_cons]

/-- C4: `permutation_importance` evaluates the feature columns
independently: the importance sequence has one entry per column, in input
column order, each equal to the score of the matrix with exactly that one
column shuffled minus the baseline score of the unperturbed matrix; the
matrix scored for column `j` agrees with the input on every column other
than `j` and carries the shuffled values on column `j`. -/
theorem C4_permutation_importance_independent {m n : ℕ}
    (score : Mat m n → ℚ) (perms : Fin n → Equiv.Perm (Fin m))
    (X_test : Mat m n) :
    (permutation_importance score perms X_test).1 =
      (List.finRange n).map
        (fun j => score (shuffleColumn (perms j) j X_test) - score X_test) ∧
    (permutation_importance score perms X_test).1.length = n ∧
    (∀ (j : Fin n) (i : Fin m) (k : Fin n), k ≠ j →
      shuffleColumn (perms j) j X_test i k = X_test i k) ∧
    (∀ (j : Fin n) (i : Fin m),
      shuffleColumn (perms j) j X_test i j = X_test ((perms j) i) j) := by
  refine ⟨?_, ?_, ?_, ?_⟩
  · show (piLoop score perms (score X_test) (List.finRange n)
      ⟨X_test, X_test⟩).1 = _
    rw [piLoop_spec]
  · show (piLoop score perms (score X_test) (List.finRange n)
      ⟨X_test, X_test⟩).1.length = n
    rw [piLoop_spec]
    simp [List.length_finRange]
  · intro j i k hk
    simp [shuffleColumn, hk]
  · intro j i
    simp [shuffleColumn]

/-- C4 witness: with two rows, two columns, the identity shuffle, a
constant score and the zero matrix, the off-column entries of the scored
matrix are the original entries. -/
theorem C4_permutation_importance_independent_witness :
    ((1 : Fin 2) ≠ (0 : Fin 2)) ∧
    shuffleColumn ((fun _ => Equiv.refl (Fin 2)) (0 : Fin 2)) (0 : Fin 2)
        (fun _ _ => (0 : ℚ)) 0 1 = (fun _ _ => (0 : ℚ)) 0 1 :=
  ⟨by decide,
    (C4_permutation_importance_independent (fun _ => 0)
      (fun _ => Equiv.refl (Fin 2)) (fun _ _ => (0 : ℚ))).2.2.1 0 0 1 (by decide)⟩

/-- C5: after `permutation_importance` returns, the caller's `X_test` is
element-for-element identical to its value before the call: the function
mutates only the internal copy. -/
theorem C5_no_mutation_of_input {m n : ℕ} (score : Mat m n → ℚ)
    (perms : Fin n → Equiv.Perm (Fin m)) (X_test : Mat m n) :
    ∀ (i : Fin m) (k : Fin n),
      (permutation_importance score perms X_test).2 i k = X_test i k := by
  intro i k
  show (piLoop score perms (score X_test) (List.finRange n)
    ⟨X_test, X_test⟩).2.X_test i k = X_test i k
  rw [piLoop_spec]

end FFP

namespace FFP

/-- Losses produced inside one epoch of `train_model`: the training-batch
losses in batch order and the validation-batch losses in batch order
(the loaders are opaque, so the per-batch loss values are parameters of
the embedding). -/
structure EpochLosses where
  trainBatches : List ℚ
  valBatches : List ℚ
deriving DecidableEq

/-- Value held by the Python variable `loss` when the progress line of an
epoch is printed (training.py, line 64).  The variable is assigned by the
training loop (line 42) and then REASSIGNED by the validation loop (line
53), so after a non-empty validation pass it holds the loss of the last
VALIDATION batch; the last training-batch loss survives only when there
are no validation batches (`0` stands for the infeasible case of two empty
loaders, which the script cannot reach because it divides by
`len(val_loader)`). -/
def lossVarAfterEpoch (b : EpochLosses) : ℚ :=
  (b.valBatches.getLast?).getD ((b.trainBatches.getLast?).getD 0)

/-- Progress lines of `train_model` (training.py, lines 63-64): for each
0-indexed epoch `e` with `(e + 1) % 100 == 0` a line is printed carrying
the 1-indexed epoch number, `loss.item()` and the epoch's mean validation
loss. -/
def progressLines (epochs : ℕ) (batches : ℕ → EpochLosses) :
    List (ℕ × ℚ × ℚ) :=
  (List.range epochs).filterMap (fun e =>
    if (e + 1) % 100 = 0 then
      some (e + 1, lossVarAfterEpoch (batches e),
        meanList (batches e).valBatches)
    else none)

/-- C6 counterexample: run 100 epochs in which every training batch has
loss `1` and every validation batch has loss `2`.  The only progress line
is printed at epoch 100 and carries the loss value `2` — the last
validation batch's loss — while the last training batch's loss is `1 ≠ 2`,
so the printed line does not contain the last training batch's loss. -/
theorem C6_counterexample :
    progressLines 100 (fun _ => EpochLosses.mk [1] [2]) = [(100, 2, 2)] ∧
    ((fun _ => EpochLosses.mk [1] [2]) 99).trainBatches.getLast? = some 1 ∧
    (2 : ℚ) ≠ 1 := by
  refine ⟨by decide, by decide, by decide⟩

/-- C6 (amended): every 100th epoch (1-indexed) — and only those — emits a
progress line containing the loss held by the shadowed loop variable,
which for a non-empty validation pass is the loss of the last VALIDATION
batch of that epoch (not the last training batch's), together with that
epoch's mean validation loss. -/
theorem C6_progress_lines (epochs : ℕ) (batches : ℕ → EpochLosses)
    (hval : ∀ e, (batches e).valBatches ≠ []) :
    (∀ x : ℕ × ℚ × ℚ, x ∈ progressLines epochs batches ↔
      ∃ e : ℕ, e < epochs ∧ (e + 1) % 100 = 0 ∧
        x = (e + 1, lossVarAfterEpoch (batches e),
          meanList (batches e).valBatches)) ∧
    (∀ e : ℕ,
      (batches e).valBatches.getLast? = some (lossVarAfterEpoch (batches e))) := by
  constructor
  · intro x
    unfold progressLines
    rw [List.mem_filterMap]
    constructor
    · rintro ⟨e, he, hfe⟩
      rw [List.mem_range] at he
      by_cases hc : (e + 1) % 100 = 0
      · rw [if_pos hc, Option.some_inj] at hfe
        exact ⟨e, he, hc, hfe.symm⟩
      · rw [if_neg hc] at hfe
        exact absurd hfe (Option.noConfusion)
    · rintro ⟨e, he, hc, hx⟩
      refine ⟨e, List.mem_range.mpr he, ?_⟩
      rw [if_pos hc, hx]
  · intro e
    have hs : ((batches e).valBatches.getLast?).isSome = true :=
      List.getLast?_isSome.mpr (hval e)
    obtain ⟨y, hy⟩ := Option.isSome_iff_exists.mp hs
    rw [lossVarAfterEpoch, hy]
    rfl

/-- C6 witness: the amended characterisation applied to the
counterexample run, at the line printed for epoch 100. -/
theorem C6_progress_lines_witness :
    ((100, 2, 2) ∈ progressLines 100 (fun _ => EpochLosses.mk [1] [2]) ↔
      ∃ e : ℕ, e < 100 ∧ (e + 1) % 100 = 0 ∧
        ((100 : ℕ), (2 : ℚ), (2 : ℚ)) = (e + 1,
          lossVarAfterEpoch ((fun _ => EpochLosses.mk [1] [2]) e),
          meanList ((fun _ => EpochLosses.mk [1] [2]) e).valBatches)) :=
  (C6_progress_lines 100 (fun _ => EpochLosses.mk [1] [2])
    (fun _ => show (EpochLosses.mk [1] [2]).valBatches ≠ [] by decide)).1
    (100, 2, 2)

end FFP

namespace FFP

/-- Observable effects of `evaluate_model` (evaluation.py, lines 9-49), in
program order.  The printed RMSE is the square root of the recorded
`rmseSq` value (`mean_squared_error(..., squared=False)`); the square is
recorded because the root is irrational in general, and order and identity
of the metrics are unaffected. -/
inductive EvalEvent where
  | setEvalMode : EvalEvent
  | predictNoGrad (inputs : List (List ℚ)) (outputs : List ℚ) : EvalEvent
  | printMetrics (label : String) (rmseSq maeVal r2Val : ℚ) : EvalEvent
  | makeDirs (path : String) (exist_ok : Bool) : EvalEvent
  | savePlot (path : String) : EvalEvent
deriving DecidableEq

/-- Embedding of `evaluate_model` (evaluation.py, lines 9-49) as its
effect trace: switch the model to inference mode, predict on train then
test inside a `torch.no_grad()` block, print the train metric line then
the test metric line, create the `results` directory with
`exist_ok=True`, and save the scatter plot to the fixed path.  The model
is opaque (a function from feature rows to predictions). -/
def evaluate_model (model : List (List ℚ) → List ℚ) (X_test : List (List ℚ))
    (y_test : List ℚ) (X_train : List (List ℚ)) (y_train : List ℚ) :
    List EvalEvent :=
  let y_train_pred := model X_train
  let y_test_pred := model X_test
  [EvalEvent.setEvalMode,
    EvalEvent.predictNoGrad X_train y_train_pred,
    EvalEvent.predictNoGrad X_test y_test_pred,
    EvalEvent.printMetrics "Training" (meanSquaredError y_train y_train_pred)
      (meanAbsoluteError y_train y_train_pred) (r2Score y_train y_train_pred),
    EvalEvent.printMetrics "Testing" (meanSquaredError y_test y_test_pred)
      (meanAbsoluteError y_test y_test_pred) (r2Score y_test y_test_pred),
    EvalEvent.makeDirs "results" true,
    EvalEvent.savePlot "results/actual_vs_predicted.png"]

/-- C8: `evaluate_model` switches the model to inference mode as its very
first action, before any prediction; both predictions happen without
gradient tracking; the RMSE (recorded by its square), MAE and R² of the
train and of the test partition are computed from the model's predictions
and printed; and the scatter plot is saved to the fixed path
`results/actual_vs_predicted.png` right after creating the `results`
directory with `exist_ok=True`. -/
theorem C8_evaluate_model_trace (model : List (List ℚ) → List ℚ)
    (X_test : List (List ℚ)) (y_test : List ℚ) (X_train : List (List ℚ))
    (y_train : List ℚ) :
    evaluate_model model X_test y_test X_train y_train =
      [EvalEvent.setEvalMode,
        EvalEvent.predictNoGrad X_train (model X_train),
        EvalEvent.predictNoGrad X_test (model X_test),
        EvalEvent.printMetrics "Training"
          (meanSquaredError y_train (model X_train))
          (meanAbsoluteError y_train (model X_train))
          (r2Score y_train (model X_train)),
        EvalEvent.printMetrics "Testing"
          (meanSquaredError y_test (model X_test))
          (meanAbsoluteError y_test (model X_test))
          (r2Score y_test (model X_test)),
        EvalEvent.makeDirs "results" true,
        EvalEvent.savePlot "results/actual_vs_predicted.png"] ∧
    (evaluate_model model X_test y_test X_train y_train).head? =
      some EvalEvent.setEvalMode ∧
    (evaluate_model model X_test y_test X_train y_train).drop 5 =
      [EvalEvent.makeDirs "results" true,
        EvalEvent.savePlot "results/actual_vs_predicted.png"] :=
  ⟨rfl, rfl, rfl⟩

end FFP

namespace FFP

/-- Minimum of a list (`np.min`; `0` on the empty list, never used). -/
def listMin : List ℚ → ℚ
  | [] => 0
  | x :: xs => xs.foldl min x

/-- Maximum of a list (`np.max`; `0` on the empty list, never used). -/
def listMax : List ℚ → ℚ
  | [] => 0
  | x :: xs => xs.foldl max x

/-- The histogram range `np.histogram` derives from the data when `bins`
is an integer: `(min, max)`, widened by `0.5` on each side when the two
coincide. -/
def histRange (data : List ℚ) : ℚ × ℚ :=
  if listMin data = listMax data then
    (listMin data - 1 / 2, listMax data + 1 / 2)
  else (listMin data, listMax data)

/-- Equal-width bin edge `i` of `n` bins over `[lo, hi]`
(`np.linspace(lo, hi, n + 1)`). -/
def binEdge (lo hi : ℚ) (n : ℕ) (i : ℕ) : ℚ :=
  lo + (i : ℚ) * (hi - lo) / (n : ℚ)

/-- Width of bin `i` (`np.diff(bins)` entry `i`). -/
def binWidth (lo hi : ℚ) (n : ℕ) (i : ℕ) : ℚ :=
  binEdge lo hi n (i + 1) - binEdge lo hi n i

/-- Membership of value `x` in bin `i`: bins are half-open
`[edge i, edge (i+1))` except the last, which also includes the right
boundary (`np.histogram` semantics for explicit edges). -/
def InBin (lo hi : ℚ) (n i : ℕ) (x : ℚ) : Prop :=
  binEdge lo hi n i ≤ x ∧
    (x < binEdge lo hi n (i + 1) ∨ (i + 1 = n ∧ x ≤ hi))

instance (lo hi : ℚ) (n i : ℕ) (x : ℚ) : Decidable (InBin lo hi n i x) := by
  unfold InBin
  infer_instance

/-- Bin index assigned to `x`, `none` when `x` falls outside `[lo, hi]`
(such values are excluded from the histogram counts). -/
def binIdx (lo hi : ℚ) (n : ℕ) (x : ℚ) : Option ℕ :=
  (List.range n).find? (fun i => decide (InBin lo hi n i x))

/-- Count of data values landing in bin `i`. -/
def histCounts (lo hi : ℚ) (n : ℕ) (data : List ℚ) (i : ℕ) : ℕ :=
  (data.filterMap (binIdx lo hi n)).count i

/-- Total count over all bins (`n.sum()` in numpy's density
normalization): the number of data values inside `[lo, hi]`. -/
def histTotal (lo hi : ℚ) (n : ℕ) (data : List ℚ) : ℕ :=
  ∑ i in Finset.range n, histCounts lo hi n data i

/-- Density histogram (`np.histogram(..., density=True)`):
`counts / widths / counts.sum()`.  When the total count is zero, numpy
divides by zero and yields NaN densities, modelled by `none`. -/
def densityHist (lo hi : ℚ) (n : ℕ) (data : List ℚ) : Option (ℕ → ℚ) :=
  if histTotal lo hi n data = 0 then none
  else some (fun i => (histCounts lo hi n data i : ℚ) / binWidth lo hi n i
    / (histTotal lo hi n data : ℚ))

/-- The distribution-overlap scalar of `plot_distribution`
(evaluation.py, lines 107-114): 30-bin density histogram of the actual
values over their own range, predicted histogram over the same bin edges,
then `np.sum(np.minimum(hist_actual, hist_pred) * np.diff(bins))`.
A NaN histogram (zero in-range total) propagates through `np.minimum` and
`np.sum`, modelled by `none`. -/
def distributionOverlap (y_test y_test_pred : List ℚ) : Option ℚ :=
  match densityHist (histRange y_test).1 (histRange y_test).2 30 y_test,
      densityHist (histRange y_test).1 (histRange y_test).2 30 y_test_pred with
  | some hist_actual, some hist_pred =>
    some (∑ i in Finset.range 30,
      min (hist_actual i) (hist_pred i) *
        binWidth (histRange y_test).1 (histRange y_test).2 30 i)
  | _, _ => none

end FFP

namespace FFP

theorem binWidth_eq (lo hi : ℚ) (n : ℕ) (i : ℕ) :
    binWidth lo hi n i = (hi - lo) / (n : ℚ) := by
  unfold binWidth binEdge
  push_cast
  ring

theorem foldl_min_le_init (xs : List ℚ) : ∀ a : ℚ, xs.foldl min a ≤ a := by
  induction xs with
  | nil => intro a; exact le_refl a
  | cons b xs ih =>
    intro a
    rw [List.foldl_cons]
    exact le_trans (ih (min a b)) (min_le_left a b)

theorem foldl_min_le_mem (xs : List ℚ) :
    ∀ (a x : ℚ), x ∈ xs → xs.foldl min a ≤ x := by
  induction xs with
  | nil => intro a x hx; exact absurd hx (List.not_mem_nil x)
  | cons b xs ih =>
    intro a x hx
    rw [List.foldl_cons]
    rcases List.mem_cons.mp hx with h | h
    · subst h
      exact le_trans (foldl_min_le_init xs (min a x)) (min_le_right a x)
    · exact ih (min a b) x h

theorem listMin_le_mem (l : List ℚ) (x : ℚ) (hx : x ∈ l) : listMin l ≤ x := by
  cases l with
  | nil => exact absurd hx (List.not_mem_nil x)
  | cons a xs =>
    rcases List.mem_cons.mp hx with h | h
    · subst h
      exact foldl_min_le_init xs x
    · exact foldl_min_le_mem xs a x h

theorem init_le_foldl_max (xs : List ℚ) : ∀ a : ℚ, a ≤ xs.foldl max a := by
  induction xs with
  | nil => intro a; exact le_refl a
  | cons b xs ih =>
    intro a
    rw [List.foldl_cons]
    exact le_trans (le_max_left a b) (ih (max a b))

theorem mem_le_foldl_max (xs : List ℚ) :
    ∀ (a x : ℚ), x ∈ xs → x ≤ xs.foldl max a := by
  induction xs with
  | nil => intro a x hx; exact absurd hx (List.not_mem_nil x)
  | cons b xs ih =>
    intro a x hx
    rw [List.foldl_cons]
    rcases List.mem_cons.mp hx with h | h
    · subst h
      exact le_trans (le_max_right a x) (init_le_foldl_max xs (max a x))
    · exact ih (max a b) x h

theorem mem_le_listMax (l : List ℚ) (x : ℚ) (hx : x ∈ l) : x ≤ listMax l := by
  cases l with
  | nil => exact absurd hx (List.not_mem_nil x)
  | cons a xs =>
    rcases List.mem_cons.mp hx with h | h
    · subst h
      exact init_le_foldl_max xs x
    · exact mem_le_foldl_max xs a x h

theorem listMin_le_listMax (l : List ℚ) (h : l ≠ []) : listMin l ≤ listMax l := by
  cases l with
  | nil => exact absurd rfl h
  | cons a xs =>
    exact le_trans (listMin_le_mem (a :: xs) a (List.mem_cons_self a xs))
      (mem_le_listMax (a :: xs) a (List.mem_cons_self a xs))

theorem histRange_spec (data : List ℚ) (h : data ≠ []) :
    (histRange data).1 ≤ listMin data ∧ listMax data ≤ (histRange data).2 ∧
      (histRange data).1 < (histRange data).2 := by
  unfold histRange
  split
  case isTrue heq =>
    refine ⟨by norm_num, by norm_num, ?_⟩
    rw [heq]
    linarith
  case isFalse hne =>
    exact ⟨le_refl _, le_refl _,
      lt_of_le_of_ne (listMin_le_listMax data h) hne⟩

end FFP

namespace FFP

theorem binEdge_as_width (lo hi : ℚ) (n : ℕ) (i : ℕ) :
    binEdge lo hi n i = lo + (i : ℚ) * ((hi - lo) / (n : ℚ)) := by
  unfold binEdge
  ring

/-- Every value of `[lo, hi]` lands in some bin when the range is proper
and there is at least one bin. -/
theorem exists_bin_of_mem_range (lo hi : ℚ) (n : ℕ) (x : ℚ)
    (hlh : lo < hi) (hn : 0 < n) (hx1 : lo ≤ x) (hx2 : x ≤ hi) :
    ∃ i, i < n ∧ InBin lo hi n i x := by
  set w : ℚ := (hi - lo) / (n : ℚ) with hw_def
  have hn0 : (0 : ℚ) < (n : ℚ) := by exact_mod_cast hn
  have hw : 0 < w := div_pos (sub_pos.mpr hlh) hn0
  have hnw : (n : ℚ) * w = hi - lo := by
    rw [hw_def]
    field_simp
  set k : ℕ := ⌊(x - lo) / w⌋₊ with hk_def
  have hk1 : (k : ℚ) ≤ (x - lo) / w :=
    Nat.floor_le (div_nonneg (sub_nonneg.mpr hx1) hw.le)
  have hk2 : (x - lo) / w < (k : ℚ) + 1 := Nat.lt_floor_add_one _
  by_cases hkn : k < n
  · refine ⟨k, hkn, ?_, ?_⟩
    · rw [binEdge_as_width]
      have : (k : ℚ) * w ≤ x - lo := (le_div_iff hw).mp hk1
      linarith
    · left
      rw [binEdge_as_width]
      have : x - lo < ((k : ℚ) + 1) * w := (div_lt_iff hw).mp hk2
      push_cast
      linarith
  · push_neg at hkn
    have hnk : (n : ℚ) ≤ (x - lo) / w := le_trans (by exact_mod_cast hkn) hk1
    have hxhi : hi ≤ x := by
      have h1 : (n : ℚ) * w ≤ x - lo := (le_div_iff hw).mp hnk
      linarith [hnw ▸ h1]
    have hxeq : x = hi := le_antisymm hx2 hxhi
    refine ⟨n - 1, by omega, ?_, Or.inr ⟨by omega, hx2⟩⟩
    rw [binEdge_as_width]
    have hc : ((n - 1 : ℕ) : ℚ) ≤ (n : ℚ) := by
      exact_mod_cast Nat.sub_le n 1
    have : ((n - 1 : ℕ) : ℚ) * w ≤ (n : ℚ) * w :=
      mul_le_mul_of_nonneg_right hc hw.le
    rw [hxeq]
    linarith [hnw ▸ this]

/-- Conversely, bin membership forces the value into `[lo, hi]`. -/
theorem mem_range_of_inBin (lo hi : ℚ) (n : ℕ) (i : ℕ) (x : ℚ)
    (hlh : lo ≤ hi) (hn : 0 < n) (hi_lt : i < n) (hb : InBin lo hi n i x) :
    lo ≤ x ∧ x ≤ hi := by
  have hn0 : (0 : ℚ) < (n : ℚ) := by exact_mod_cast hn
  have hw : 0 ≤ (hi - lo) / (n : ℚ) :=
    div_nonneg (sub_nonneg.mpr hlh) hn0.le
  obtain ⟨h1, h2⟩ := hb
  constructor
  · refine le_trans ?_ h1
    rw [binEdge_as_width]
    have : 0 ≤ (i : ℚ) * ((hi - lo) / (n : ℚ)) :=
      mul_nonneg (Nat.cast_nonneg i) hw
    linarith
  · rcases h2 with h2 | h2
    · have hin : ((i + 1 : ℕ) : ℚ) ≤ (n : ℚ) := by
        exact_mod_cast hi_lt
      have hnw : (n : ℚ) * ((hi - lo) / (n : ℚ)) = hi - lo := by
        field_simp
      have hle : binEdge lo hi n (i + 1) ≤ hi := by
        rw [binEdge_as_width]
        have : ((i + 1 : ℕ) : ℚ) * ((hi - lo) / (n : ℚ)) ≤
            (n : ℚ) * ((hi - lo) / (n : ℚ)) :=
          mul_le_mul_of_nonneg_right hin hw
        linarith [hnw ▸ this]
      exact le_trans h2.le hle
    · exact h2.2

/-- A `find?` over `List.range n` succeeds exactly when some index below
`n` satisfies the predicate. -/
theorem binIdx_isSome_iff (lo hi : ℚ) (n : ℕ) (x : ℚ) :
    (binIdx lo hi n x).isSome = true ↔ ∃ i, i < n ∧ InBin lo hi n i x := by
  unfold binIdx
  rw [List.find?_isSome]
  constructor
  · rintro ⟨i, hi_mem, hp⟩
    exact ⟨i, List.mem_range.mp hi_mem, of_decide_eq_true hp⟩
  · rintro ⟨i, hi_lt, hp⟩
    exact ⟨i, List.mem_range.mpr hi_lt, decide_eq_true hp⟩

/-- A successful `binIdx` returns an index below `n` whose bin contains
the value. -/
theorem binIdx_eq_some (lo hi : ℚ) (n : ℕ) (x : ℚ) (i : ℕ)
    (h : binIdx lo hi n x = some i) : i < n ∧ InBin lo hi n i x := by
  unfold binIdx at h
  refine ⟨List.mem_range.mp (List.mem_of_find?_eq_some h), ?_⟩
  have hp := List.find?_some (p := fun j => decide (InBin lo hi n j x)) h
  simp only [decide_eq_true_eq] at hp
  exact hp

end FFP

namespace FFP

theorem filterMap_length_of_isSome {α β : Type} (f : α → Option β) :
    ∀ l : List α, (∀ x ∈ l, (f x).isSome = true) →
      (l.filterMap f).length = l.length := by
  intro l
  induction l with
  | nil => intro _; rfl
  | cons a l ih =>
    intro h
    obtain ⟨b, hb⟩ := Option.isSome_iff_exists.mp (h a (List.mem_cons_self a l))
    rw [List.filterMap_cons, hb, List.length_cons,
      ih (fun x hx => h x (List.mem_cons_of_mem a hx)), List.length_cons]

theorem sum_count_range (n : ℕ) :
    ∀ l : List ℕ, (∀ j ∈ l, j < n) →
      (∑ i in Finset.range n, l.count i) = l.length := by
  intro l
  induction l with
  | nil => intro _; simp
  | cons a l ih =>
    intro h
    have ha : a < n := h a (List.mem_cons_self a l)
    have htail := ih (fun j hj => h j (List.mem_cons_of_mem a hj))
    simp only [List.count_cons, beq_iff_eq]
    rw [Finset.sum_add_distrib, htail]
    rw [Finset.sum_ite_eq (Finset.range n) a (fun _ => 1)]
    rw [if_pos (Finset.mem_range.mpr ha), List.length_cons]

theorem mem_filterMap_binIdx_lt (lo hi : ℚ) (n : ℕ) (data : List ℚ) :
    ∀ j ∈ data.filterMap (binIdx lo hi n), j < n := by
  intro j hj
  rw [List.mem_filterMap] at hj
  obtain ⟨x, _, hx⟩ := hj
  exact (binIdx_eq_some lo hi n x j hx).1

theorem histTotal_eq_length (lo hi : ℚ) (n : ℕ) (data : List ℚ)
    (h : ∀ x ∈ data, (binIdx lo hi n x).isSome = true) :
    histTotal lo hi n data = data.length := by
  unfold histTotal histCounts
  rw [sum_count_range n (data.filterMap (binIdx lo hi n))
    (mem_filterMap_binIdx_lt lo hi n data)]
  exact filterMap_length_of_isSome (binIdx lo hi n) data h

theorem histTotal_eq_zero (lo hi : ℚ) (n : ℕ) (data : List ℚ)
    (h : ∀ x ∈ data, binIdx lo hi n x = none) :
    histTotal lo hi n data = 0 := by
  unfold histTotal histCounts
  rw [List.filterMap_eq_nil.mpr h]
  simp

/-- The density histogram integrates to `1` over its bins when the total
count is positive and the bin width is positive. -/
theorem density_integral (lo hi : ℚ) (n : ℕ) (data : List ℚ)
    (hT : histTotal lo hi n data ≠ 0) (hw : 0 < (hi - lo) / (n : ℚ)) :
    (∑ i in Finset.range n,
      ((histCounts lo hi n data i : ℚ) / binWidth lo hi n i
        / (histTotal lo hi n data : ℚ)) * binWidth lo hi n i) = 1 := by
  have hw0 : (hi - lo) / (n : ℚ) ≠ 0 := ne_of_gt hw
  have hterm : ∀ i : ℕ,
      ((histCounts lo hi n data i : ℚ) / binWidth lo hi n i
        / (histTotal lo hi n data : ℚ)) * binWidth lo hi n i =
      (histCounts lo hi n data i : ℚ) / (histTotal lo hi n data : ℚ) := by
    intro i
    have hn0 : (n : ℚ) ≠ 0 := by
      intro h0
      rw [h0, div_zero] at hw
      exact lt_irrefl 0 hw
    have hsub : hi - lo ≠ 0 := by
      intro h0
      rw [h0, zero_div] at hw
      exact lt_irrefl 0 hw
    have hT0 : (histTotal lo hi n data : ℚ) ≠ 0 := by exact_mod_cast hT
    rw [binWidth_eq]
    field_simp
    ring
  rw [Finset.sum_congr rfl (fun i _ => hterm i), ← Finset.sum_div]
  have hcast : (∑ i in Finset.range n, (histCounts lo hi n data i : ℚ)) =
      ((histTotal lo hi n data : ℕ) : ℚ) := by
    unfold histTotal
    push_cast
    rfl
  rw [hcast]
  exact div_self (by exact_mod_cast hT)

/-- Densities are nonnegative whenever the bin width is nonnegative. -/
theorem density_nonneg (lo hi : ℚ) (n : ℕ) (data : List ℚ) (i : ℕ)
    (hw : 0 ≤ (hi - lo) / (n : ℚ)) :
    0 ≤ (histCounts lo hi n data i : ℚ) / binWidth lo hi n i
      / (histTotal lo hi n data : ℚ) := by
  rw [binWidth_eq]
  have h1 : (0 : ℚ) ≤ (histCounts lo hi n data i : ℚ) := Nat.cast_nonneg _
  have h2 : (0 : ℚ) ≤ (histTotal lo hi n data : ℚ) := Nat.cast_nonneg _
  exact div_nonneg (div_nonneg h1 hw) h2

end FFP

namespace FFP

/-- Inversion for a defined overlap: both density histograms exist and the
value is the sum of min-density times bin width. -/
theorem distributionOverlap_eq_some (y_test y_pred : List ℚ) (v : ℚ)
    (h : distributionOverlap y_test y_pred = some v) :
    ∃ da dp : ℕ → ℚ,
      densityHist (histRange y_test).1 (histRange y_test).2 30 y_test = some da ∧
      densityHist (histRange y_test).1 (histRange y_test).2 30 y_pred = some dp ∧
      v = ∑ i in Finset.range 30, min (da i) (dp i) *
        binWidth (histRange y_test).1 (histRange y_test).2 30 i := by
  unfold distributionOverlap at h
  split at h
  case _ da dp hda hdp =>
    exact ⟨da, dp, hda, hdp, (Option.some_inj.mp h).symm⟩
  case _ =>
    exact absurd h (by simp)

/-- C7 (amended): the distribution-overlap scalar of `plot_distribution`
is the sum over the 30 bins (edges from the actual sample, reused for the
predicted histogram) of the minimum of the two densities times the bin
width; whenever it is defined it lies in `[0, 1]`; for identical samples
it equals exactly `1`; and when no predicted value lies inside the actual
histogram's range the predicted density normalization divides by a zero
total count, so the overlap is NaN (modelled `none`), not `0`. -/
theorem C7_distribution_overlap (y_test y_pred : List ℚ) (hne : y_test ≠ []) :
    (∀ da dp : ℕ → ℚ,
      densityHist (histRange y_test).1 (histRange y_test).2 30 y_test = some da →
      densityHist (histRange y_test).1 (histRange y_test).2 30 y_pred = some dp →
      distributionOverlap y_test y_pred =
        some (∑ i in Finset.range 30, min (da i) (dp i) *
          binWidth (histRange y_test).1 (histRange y_test).2 30 i)) ∧
    (∀ v : ℚ, distributionOverlap y_test y_pred = some v → 0 ≤ v ∧ v ≤ 1) ∧
    distributionOverlap y_test y_test = some 1 ∧
    ((∀ x ∈ y_pred, x < (histRange y_test).1 ∨ (histRange y_test).2 < x) →
      distributionOverlap y_test y_pred = none) := by
  obtain ⟨hlo, hhi, hlt⟩ := histRange_spec y_test hne
  have hwpos : 0 < ((histRange y_test).2 - (histRange y_test).1) / ((30 : ℕ) : ℚ) :=
    div_pos (sub_pos.mpr hlt) (by norm_num)
  have hwnn : 0 ≤ binWidth (histRange y_test).1 (histRange y_test).2 30 0 := by
    rw [binWidth_eq]
    exact hwpos.le
  have hall : ∀ x ∈ y_test,
      (binIdx (histRange y_test).1 (histRange y_test).2 30 x).isSome = true := by
    intro x hx
    rw [binIdx_isSome_iff]
    exact exists_bin_of_mem_range _ _ 30 x hlt (by norm_num)
      (le_trans hlo (listMin_le_mem y_test x hx))
      (le_trans (mem_le_listMax y_test x hx) hhi)
  have hTa0 : histTotal (histRange y_test).1 (histRange y_test).2 30 y_test ≠ 0 := by
    rw [histTotal_eq_length _ _ _ _ hall]
    intro h0
    exact hne (List.length_eq_zero.mp h0)
  have hda : densityHist (histRange y_test).1 (histRange y_test).2 30 y_test =
      some (fun i =>
        (histCounts (histRange y_test).1 (histRange y_test).2 30 y_test i : ℚ)
          / binWidth (histRange y_test).1 (histRange y_test).2 30 i
          / (histTotal (histRange y_test).1 (histRange y_test).2 30 y_test : ℚ)) := by
    unfold densityHist
    rw [if_neg hTa0]
  have hoverlap : ∀ (z : List ℚ) (da dp : ℕ → ℚ),
      densityHist (histRange y_test).1 (histRange y_test).2 30 y_test = some da →
      densityHist (histRange y_test).1 (histRange y_test).2 30 z = some dp →
      distributionOverlap y_test z =
        some (∑ i in Finset.range 30, min (da i) (dp i) *
          binWidth (histRange y_test).1 (histRange y_test).2 30 i) := by
    intro z da dp hda2 hdp2
    unfold distributionOverlap
    rw [hda2, hdp2]
  refine ⟨fun da dp hda2 hdp2 => hoverlap y_pred da dp hda2 hdp2, ?_, ?_, ?_⟩
  · intro v hv
    obtain ⟨da, dp, hda2, hdp2, hveq⟩ := distributionOverlap_eq_some _ _ _ hv
    have hdaeq : da = fun i =>
        (histCounts (histRange y_test).1 (histRange y_test).2 30 y_test i : ℚ)
          / binWidth (histRange y_test).1 (histRange y_test).2 30 i
          / (histTotal (histRange y_test).1 (histRange y_test).2 30 y_test : ℚ) := by
      rw [hda] at hda2
      exact (Option.some_inj.mp hda2).symm
    have hdpeq : dp = fun i =>
        (histCounts (histRange y_test).1 (histRange y_test).2 30 y_pred i : ℚ)
          / binWidth (histRange y_test).1 (histRange y_test).2 30 i
          / (histTotal (histRange y_test).1 (histRange y_test).2 30 y_pred : ℚ) := by
      unfold densityHist at hdp2
      split at hdp2
      case _ => exact absurd hdp2 (by simp)
      case _ => exact (Option.some_inj.mp hdp2).symm
    have hwn : ∀ i : ℕ,
        0 ≤ binWidth (histRange y_test).1 (histRange y_test).2 30 i := by
      intro i
      rw [binWidth_eq]
      exact hwpos.le
    subst hveq
    constructor
    · apply Finset.sum_nonneg
      intro i _
      apply mul_nonneg _ (hwn i)
      apply le_min
      · rw [hdaeq]
        exact density_nonneg _ _ 30 y_test i hwpos.le
      · rw [hdpeq]
        exact density_nonneg _ _ 30 y_pred i hwpos.le
    · have hle : (∑ i in Finset.range 30, min (da i) (dp i) *
          binWidth (histRange y_test).1 (histRange y_test).2 30 i) ≤
          ∑ i in Finset.range 30, da i *
            binWidth (histRange y_test).1 (histRange y_test).2 30 i := by
        apply Finset.sum_le_sum
        intro i _
        exact mul_le_mul_of_nonneg_right (min_le_left _ _) (hwn i)
      refine le_trans hle ?_
      rw [hdaeq]
      exact le_of_eq (density_integral _ _ 30 y_test hTa0 hwpos)
  · rw [hoverlap y_test _ _ hda hda, Option.some_inj]
    simp only [min_self]
    exact density_integral _ _ 30 y_test hTa0 hwpos
  · intro hout
    have hnone : ∀ x ∈ y_pred,
        binIdx (histRange y_test).1 (histRange y_test).2 30 x = none := by
      intro x hx
      rw [← Option.not_isSome_iff_eq_none]
      intro hsome
      obtain ⟨i, hi30, hbin⟩ := (binIdx_isSome_iff _ _ 30 x).mp hsome
      obtain ⟨h1, h2⟩ := mem_range_of_inBin _ _ 30 i x hlt.le (by norm_num) hi30 hbin
      rcases hout x hx with h | h
      · linarith
      · linarith
    have hTp : histTotal (histRange y_test).1 (histRange y_test).2 30 y_pred = 0 :=
      histTotal_eq_zero _ _ 30 y_pred hnone
    have hdpnone :
        densityHist (histRange y_test).1 (histRange y_test).2 30 y_pred = none := by
      unfold densityHist
      rw [if_pos hTp]
    unfold distributionOverlap
    rw [hda, hdpnone]

end FFP

namespace FFP

set_option maxRecDepth 20000 in
/-- C7 counterexample: the actual sample `[0, 30]` and the predicted
sample `[100]` have disjoint ranges, yet the overlap is NaN (`none`,
because every predicted value falls outside the actual bins and numpy's
density normalization divides by the zero total count), not `0.0` as the
claim states. -/
theorem C7_counterexample :
    listMax [0, 30] < listMin [100] ∧
    distributionOverlap [0, 30] [100] = none ∧
    distributionOverlap [0, 30] [100] ≠ some 0 := by
  refine ⟨by decide, by decide, by decide⟩

set_option maxRecDepth 20000 in
/-- C7 witness: the amended theorem applied to the non-empty actual
sample `[0, 30]`; in particular two identical samples overlap exactly
`1`. -/
theorem C7_distribution_overlap_witness :
    ([0, 30] : List ℚ) ≠ [] ∧ distributionOverlap [0, 30] [0, 30] = some 1 :=
  ⟨by decide, (C7_distribution_overlap [0, 30] [100] (by decide)).2.2.1⟩

end FFP
